import Mathlib

/-!
Verification of the perfetto SetId (grouping-id) column storage
(`src/trace_processor/db/storage/set_id_storage.h`) and of the
`ProcessStatsDataSource` constructor configuration logic
(`src/traced/probes/ps/process_stats_data_source.cc`).

The column data model is an ordered sequence of unsigned 32-bit values,
modelled as a `List Nat`.  The grouping-id invariant requires
`value[i] <= i` for every index and the sequence to be non-decreasing.
-/

namespace SetId

/-- Filter operators supported by the storage layer
(`FilterOp` in `src/trace_processor/db/storage/types.h`). -/
inductive FilterOp where
  | eq | ne | lt | le | gt | ge | isNull | isNotNull
deriving DecidableEq, Repr

/-- A half-open contiguous range `[lo, hi)` of row positions
(`RowMap::Range`). -/
structure RowRange where
  lo : Nat
  hi : Nat
deriving DecidableEq, Repr

/-- Membership of a row position in a half-open range. -/
def RowRange.holds (r : RowRange) (i : Nat) : Prop := r.lo ≤ i ∧ i < r.hi

instance (r : RowRange) (i : Nat) : Decidable (r.holds i) := by
  unfold RowRange.holds; infer_instance

/-- Result of a search: either a single contiguous range of matching
positions, or an explicit ascending set of matching positions
(`RangeOrBitVector` in `src/trace_processor/db/storage/types.h`;
the bit-vector is modelled as the list of set positions). -/
inductive RangeOrBitVector where
  | range (r : RowRange)
  | bitVector (positions : List Nat)
deriving DecidableEq, Repr

/-- The grouping-id invariant of §3 of the spec: for every index `i`,
`0 <= value[i] <= i`, and the sequence is non-decreasing. -/
def ValidSetId (values : List Nat) : Prop :=
  (∀ i, i < values.length → values.getD i 0 ≤ i) ∧
  values.Pairwise (· ≤ ·)

instance (values : List Nat) : Decidable (ValidSetId values) := by
  unfold ValidSetId; infer_instance

/-- The slice of the value sequence covered by the row range `[b, e)`. -/
def slice (values : List Nat) (b e : Nat) : List Nat :=
  (values.take e).drop b

/-- Modelled from the spec (§4.2, "boundary binary search"; the
implementation file `set_id_storage.cc` is not in the sources): the lower
boundary of the block of values equal to `t` within `[b, e)` — the first
position in `[b, e)` whose value is `>= t`, or `e` when there is none. -/
def lowerBound (values : List Nat) (b e t : Nat) : Nat :=
  b + (slice values b e).findIdx (fun v => decide (t ≤ v))

/-- Modelled from the spec (§4.2, "boundary binary search"): the upper
boundary of the block of values equal to `t` within `[b, e)` — the first
position in `[b, e)` whose value is `> t`, or `e` when there is none. -/
def upperBound (values : List Nat) (b e t : Nat) : Nat :=
  b + (slice values b e).findIdx (fun v => decide (t < v))

/-- Whether one value satisfies the predicate `{op, t}`
(the per-element comparison of §3's filter predicate). -/
def opMatches (op : FilterOp) (t v : Nat) : Bool :=
  match op with
  | .eq => v == t
  | .ne => v != t
  | .lt => decide (v < t)
  | .le => decide (v ≤ t)
  | .gt => decide (t < v)
  | .ge => decide (t ≤ v)
  | .isNull => false
  | .isNotNull => true

/-- Modelled from the spec (§4.2; `SetIdStorage::Search` is declared in
`set_id_storage.h` but its implementation file is not in the sources):
range search of predicate `{op, t}` over the row range `[b, e)`.
`Eq` returns the contiguous block located by the two boundary searches;
`Ne` returns the complement within `[b, e)` as an explicit position set;
`Lt`/`Le`/`Gt`/`Ge` return the prefix or suffix of `[b, e)` delimited by a
single boundary search; `IsNull` is always empty and `IsNotNull` always
the full queried range. -/
def search (values : List Nat) (op : FilterOp) (t b e : Nat) :
    RangeOrBitVector :=
  match op with
  | .eq => .range ⟨lowerBound values b e t, upperBound values b e t⟩
  | .ne => .bitVector ((List.range' b (e - b)).filter
      (fun i => values.getD i 0 != t))
  | .lt => .range ⟨b, lowerBound values b e t⟩
  | .le => .range ⟨b, upperBound values b e t⟩
  | .gt => .range ⟨upperBound values b e t, e⟩
  | .ge => .range ⟨lowerBound values b e t, e⟩
  | .isNull => .range ⟨b, b⟩
  | .isNotNull => .range ⟨b, e⟩

/-- Modelled from the spec (§4.3; `SetIdStorage::IndexSearch` is declared
in `set_id_storage.h` but its implementation file is not in the sources):
subset search of predicate `{op, t}` over a caller-supplied list of row
positions.  With `sorted = false` the predicate is evaluated independently
at each supplied position and the matches are collected into an explicit
position set; with `sorted = true` the boundary binary search runs over
the projection of the values through the list and the boundary is mapped
back through the list. -/
def indexSearch (values : List Nat) (op : FilterOp) (t : Nat)
    (indices : List Nat) (sorted : Bool) : RangeOrBitVector :=
  if sorted then
    let proj := indices.map (fun i => values.getD i 0)
    let n := indices.length
    let lb := lowerBound proj 0 n t
    let ub := upperBound proj 0 n t
    match op with
    | .eq => .bitVector ((indices.drop lb).take (ub - lb))
    | .ne => .bitVector (indices.take lb ++ indices.drop ub)
    | .lt => .bitVector (indices.take lb)
    | .le => .bitVector (indices.take ub)
    | .gt => .bitVector (indices.drop ub)
    | .ge => .bitVector (indices.drop lb)
    | .isNull => .bitVector []
    | .isNotNull => .bitVector indices
  else
    .bitVector (indices.filter (fun i => opMatches op t (values.getD i 0)))

/-- Modelled from the spec (§4.4; `SetIdStorage::StableSort` is declared
in `set_id_storage.h` but its implementation file is not in the sources):
stable in-place sort of a buffer of row positions by column value;
equal-value runs retain their original relative order. -/
def stableSort (values : List Nat) (rows : List Nat) : List Nat :=
  rows.mergeSort (fun a b => decide (values.getD a 0 ≤ values.getD b 0))

/-- Modelled from the spec (§4.4; `SetIdStorage::Sort` is declared in
`set_id_storage.h` but its implementation file is not in the sources):
in-place sort of a buffer of row positions so that the value at the
positions is non-decreasing. -/
def sortRows (values : List Nat) (rows : List Nat) : List Nat :=
  rows.mergeSort (fun a b => decide (values.getD a 0 ≤ values.getD b 0))

/-- `SetIdStorage::size` (`set_id_storage.h`, lines 55–57): the length of
the externally owned value vector cast with `static_cast<uint32_t>`,
i.e. reduced modulo `2^32`. -/
def size (values : List Nat) : Nat :=
  values.length % 2 ^ 32

end SetId

namespace ProcessStats

/-- The fields of `ProcessStatsConfig` read by the constructor
(`process_stats_data_source.cc`, lines 106–118); both are `uint32`. -/
structure Config where
  proc_stats_poll_ms : Nat
  proc_stats_cache_ttl_ms : Nat
deriving Repr

/-- The members of `ProcessStatsDataSource` assigned by the constructor's
poll-period logic.  `cacheTtlTicks = none` models the member keeping its
default value (the `poll_period_ms_ > 0` branch not taken). -/
structure PollState where
  pollPeriodMs : Nat
  cacheTtlTicks : Option Nat
deriving DecidableEq, Repr

/-- `ProcessStatsDataSource::ProcessStatsDataSource`
(`process_stats_data_source.cc`, lines 106–118): the configured
`proc_stats_poll_ms` is raised to 100 when strictly between 0 and 100;
when the resulting poll period is positive, the cache TTL in ticks is
`max(proc_stats_cache_ttl_ms / poll_period_ms_, 1u)` with the updated
poll period. -/
def initPollState (cfg : Config) : PollState :=
  let p0 := cfg.proc_stats_poll_ms
  let p := if 0 < p0 ∧ p0 < 100 then 100 else p0
  if 0 < p then
    ⟨p, some (max (cfg.proc_stats_cache_ttl_ms / p) 1)⟩
  else
    ⟨p, none⟩

end ProcessStats

namespace SetId

/-- The slice of `[b, e)` has length `e - b` when the range is valid. -/
theorem slice_length (values : List Nat) (b e : Nat) (hbe : b ≤ e)
    (heN : e ≤ values.length) : (slice values b e).length = e - b := by
  simp [slice, List.length_drop, List.length_take]
  omega

/-- Elements of the slice are the values at the shifted positions. -/
theorem slice_getD (values : List Nat) (b e j : Nat) (hj : j < e - b)
    (heN : e ≤ values.length) :
    (slice values b e).getD j 0 = values.getD (b + j) 0 := by
  have hbe : b ≤ e := by omega
  have hlen : j < (slice values b e).length := by
    rw [slice_length values b e hbe heN]; exact hj
  have hbj : b + j < values.length := by omega
  rw [List.getD_eq_getElem _ _ hlen, List.getD_eq_getElem _ _ hbj]
  simp only [slice]
  rw [List.getElem_drop, List.getElem_take]

/-- A slice of a non-decreasing sequence is non-decreasing. -/
theorem slice_pairwise (values : List Nat) (b e : Nat)
    (h : values.Pairwise (· ≤ ·)) :
    (slice values b e).Pairwise (· ≤ ·) :=
  List.Pairwise.sublist
    ((List.drop_sublist b _).trans (List.take_sublist e values)) h

/-- On a non-decreasing sequence, a monotone predicate holds at a position
exactly when the position is at or beyond the first index satisfying it. -/
theorem findIdx_char (s : List Nat) (p : Nat → Bool)
    (hs : s.Pairwise (· ≤ ·))
    (hp : ∀ a b, a ≤ b → p a = true → p b = true)
    (j : Nat) (hj : j < s.length) :
    s.findIdx p ≤ j ↔ p (s.getD j 0) = true := by
  rw [List.getD_eq_getElem _ _ hj]
  constructor
  · intro hle
    have hf : s.findIdx p < s.length := lt_of_le_of_lt hle hj
    have h1 : p s[s.findIdx p] = true := List.findIdx_getElem (w := hf)
    rcases Nat.lt_or_ge (s.findIdx p) j with hlt | hge
    · exact hp _ _ (List.pairwise_iff_getElem.mp hs _ _ hf hj hlt) h1
    · have hEq : s.findIdx p = j := by omega
      subst hEq; exact h1
  · intro hpj
    by_contra hgt
    push_neg at hgt
    have hfalse := List.not_of_lt_findIdx hgt
    rw [hpj] at hfalse
    exact Bool.noConfusion hfalse

/-- The first index satisfying a stronger predicate is no earlier. -/
theorem findIdx_mono_pred (s : List Nat) (p q : Nat → Bool)
    (himp : ∀ v, q v = true → p v = true) :
    s.findIdx p ≤ s.findIdx q := by
  by_contra hlt
  push_neg at hlt
  have hq : s.findIdx q < s.length :=
    lt_of_lt_of_le hlt (List.findIdx_le_length p)
  have h1 := List.not_of_lt_findIdx hlt
  have h2 : q s[s.findIdx q] = true := List.findIdx_getElem (w := hq)
  rw [himp _ h2] at h1
  exact Bool.noConfusion h1

/-- Dropping an all-false region in front shifts the first matching index
by the length of the dropped region. -/
theorem findIdx_drop_shift (p : Nat → Bool) :
    ∀ (k : Nat) (l : List Nat), k ≤ l.length →
      (∀ i, (h : i < l.length) → i < k → p l[i] = false) →
      k + (l.drop k).findIdx p = l.findIdx p := by
  intro k
  induction k with
  | zero => intro l _ _; simp
  | succ k ih =>
    intro l hk hfa
    match l with
    | [] => simp at hk
    | a :: tl =>
      have ha : p a = false := hfa 0 (by simp) (Nat.succ_pos k)
      have htl : k + (tl.drop k).findIdx p = tl.findIdx p := by
        refine ih tl (by simp at hk; omega) ?_
        intro i h hi
        have hstep := hfa (i + 1) (by simp; omega) (by omega)
        simpa using hstep
      rw [List.drop_succ_cons, List.findIdx_cons, ha]
      simp only [cond_false]
      omega

/-- `lowerBound` stays inside the queried range. -/
theorem lowerBound_bounds (values : List Nat) (b e t : Nat) (hbe : b ≤ e)
    (heN : e ≤ values.length) :
    b ≤ lowerBound values b e t ∧ lowerBound values b e t ≤ e := by
  refine ⟨Nat.le_add_right b _, ?_⟩
  have := @List.findIdx_le_length Nat (fun v => decide (t ≤ v))
    (slice values b e)
  rw [slice_length values b e hbe heN] at this
  unfold lowerBound
  omega

/-- `upperBound` stays inside the queried range. -/
theorem upperBound_bounds (values : List Nat) (b e t : Nat) (hbe : b ≤ e)
    (heN : e ≤ values.length) :
    b ≤ upperBound values b e t ∧ upperBound values b e t ≤ e := by
  refine ⟨Nat.le_add_right b _, ?_⟩
  have := @List.findIdx_le_length Nat (fun v => decide (t < v))
    (slice values b e)
  rw [slice_length values b e hbe heN] at this
  unfold upperBound
  omega

/-- `lowerBound` never exceeds `upperBound`. -/
theorem lowerBound_le_upperBound (values : List Nat) (b e t : Nat) :
    lowerBound values b e t ≤ upperBound values b e t := by
  unfold lowerBound upperBound
  have := findIdx_mono_pred (slice values b e)
    (fun v => decide (t ≤ v)) (fun v => decide (t < v))
    (fun v hv => by
      simp only [decide_eq_true_eq] at *
      omega)
  omega

/-- For a position inside the queried range of a non-decreasing sequence,
its value is `≥ t` exactly when the position is at or past `lowerBound`. -/
theorem lowerBound_le_iff (values : List Nat) (b e t : Nat)
    (hs : values.Pairwise (· ≤ ·)) (heN : e ≤ values.length)
    (i : Nat) (hbi : b ≤ i) (hie : i < e) :
    lowerBound values b e t ≤ i ↔ t ≤ values.getD i 0 := by
  have hbe : b ≤ e := by omega
  have hlen : i - b < (slice values b e).length := by
    rw [slice_length values b e hbe heN]; omega
  have hchar := findIdx_char (slice values b e) (fun v => decide (t ≤ v))
    (slice_pairwise values b e hs)
    (fun a c hac ha => by
      simp only [decide_eq_true_eq] at *
      omega)
    (i - b) hlen
  rw [slice_getD values b e (i - b) (by omega) heN] at hchar
  have hib : b + (i - b) = i := by omega
  rw [hib] at hchar
  simp only [decide_eq_true_eq] at hchar
  unfold lowerBound
  omega

/-- For a position inside the queried range of a non-decreasing sequence,
its value is `> t` exactly when the position is at or past `upperBound`. -/
theorem upperBound_le_iff (values : List Nat) (b e t : Nat)
    (hs : values.Pairwise (· ≤ ·)) (heN : e ≤ values.length)
    (i : Nat) (hbi : b ≤ i) (hie : i < e) :
    upperBound values b e t ≤ i ↔ t < values.getD i 0 := by
  have hbe : b ≤ e := by omega
  have hlen : i - b < (slice values b e).length := by
    rw [slice_length values b e hbe heN]; omega
  have hchar := findIdx_char (slice values b e) (fun v => decide (t < v))
    (slice_pairwise values b e hs)
    (fun a c hac ha => by
      simp only [decide_eq_true_eq] at *
      omega)
    (i - b) hlen
  rw [slice_getD values b e (i - b) (by omega) heN] at hchar
  have hib : b + (i - b) = i := by omega
  rw [hib] at hchar
  simp only [decide_eq_true_eq] at hchar
  unfold upperBound
  omega

/-- Inside the queried range of a non-decreasing sequence, membership in
the block `[lowerBound, upperBound)` is exactly equality with the target. -/
theorem eq_block_char (values : List Nat) (t b e i : Nat)
    (hs : values.Pairwise (· ≤ ·)) (heN : e ≤ values.length)
    (hbi : b ≤ i) (hie : i < e) :
    (lowerBound values b e t ≤ i ∧ i < upperBound values b e t) ↔
      values.getD i 0 = t := by
  have h1 := lowerBound_le_iff values b e t hs heN i hbi hie
  have h2 := upperBound_le_iff values b e t hs heN i hbi hie
  constructor
  · rintro ⟨ha, hb_⟩
    have := h1.mp ha
    have : ¬ t < values.getD i 0 := fun hcon => by
      have := h2.mpr hcon; omega
    omega
  · intro hv
    have ha := h1.mpr (le_of_eq hv.symm)
    have hb_ : ¬ upperBound values b e t ≤ i := fun hcon => by
      have := h2.mp hcon; omega
    omega

/-- C1: for every value sequence satisfying the grouping-id invariant and
every target `t`, `Search` with `Eq` over the full range `[0, N)` returns
a single contiguous half-open range of positions holding exactly
`{i : value[i] = t}` (empty when `t` is absent). -/
theorem search_eq_full_spec (values : List Nat) (t : Nat)
    (hv : ValidSetId values) :
    ∃ l u, search values FilterOp.eq t 0 values.length =
        .range (RowRange.mk l u) ∧
      l ≤ u ∧ u ≤ values.length ∧
      ∀ i, i < values.length →
        ((RowRange.mk l u).holds i ↔ values.getD i 0 = t) := by
  obtain ⟨hbd, hs⟩ := hv
  refine ⟨lowerBound values 0 values.length t,
    upperBound values 0 values.length t, rfl,
    lowerBound_le_upperBound values 0 values.length t,
    (upperBound_bounds values 0 values.length t (Nat.zero_le _) le_rfl).2,
    fun i hi => ?_⟩
  simpa only [RowRange.holds] using
    eq_block_char values t 0 values.length i hs le_rfl (Nat.zero_le i) hi

/-- Closed instance of `search_eq_full_spec` on the worked example of the
spec: sequence `[0,0,1,1,1,4]`, target `1`. -/
theorem search_eq_full_spec_witness :
    ∃ l u, search [0, 0, 1, 1, 1, 4] FilterOp.eq 1 0
        ([0, 0, 1, 1, 1, 4] : List Nat).length = .range (RowRange.mk l u) ∧
      l ≤ u ∧ u ≤ ([0, 0, 1, 1, 1, 4] : List Nat).length ∧
      ∀ i, i < ([0, 0, 1, 1, 1, 4] : List Nat).length →
        ((RowRange.mk l u).holds i ↔
          ([0, 0, 1, 1, 1, 4] : List Nat).getD i 0 = 1) :=
  search_eq_full_spec [0, 0, 1, 1, 1, 4] 1 (by decide)

/-- C2: under the grouping-id invariant, no position below `v` holds the
value `v`; consequently both boundary binary searches for `v` may soundly
start their search space at position `v` without changing the result. -/
theorem no_position_below_value (values : List Nat) (v : Nat)
    (hv : ValidSetId values) :
    (∀ i, i < values.length → values.getD i 0 = v → v ≤ i) ∧
    (v ≤ values.length →
      lowerBound values v values.length v =
        lowerBound values 0 values.length v ∧
      upperBound values v values.length v =
        upperBound values 0 values.length v) := by
  obtain ⟨hbd, hs⟩ := hv
  have hslice : slice values v values.length = values.drop v := by
    simp [slice, List.take_length]
  have hslice0 : slice values 0 values.length = values := by
    simp [slice, List.take_length]
  refine ⟨fun i hi hval => ?_, fun hvN => ⟨?_, ?_⟩⟩
  · have := hbd i hi
    omega
  · unfold lowerBound
    rw [hslice, hslice0]
    have hshift := findIdx_drop_shift (fun w => decide (v ≤ w)) v values hvN
      (fun i h hi => by
        have hb := hbd i h
        rw [List.getD_eq_getElem _ _ h] at hb
        simp only [decide_eq_false_iff_not]
        omega)
    omega
  · unfold upperBound
    rw [hslice, hslice0]
    have hshift := findIdx_drop_shift (fun w => decide (v < w)) v values hvN
      (fun i h hi => by
        have hb := hbd i h
        rw [List.getD_eq_getElem _ _ h] at hb
        simp only [decide_eq_false_iff_not]
        omega)
    omega

/-- Closed instance of `no_position_below_value` at the sequence
`[0,0,1,1,1,4]` and target value `4`. -/
theorem no_position_below_value_witness :
    (∀ i, i < ([0, 0, 1, 1, 1, 4] : List Nat).length →
      ([0, 0, 1, 1, 1, 4] : List Nat).getD i 0 = 4 → 4 ≤ i) ∧
    (4 ≤ ([0, 0, 1, 1, 1, 4] : List Nat).length →
      lowerBound [0, 0, 1, 1, 1, 4] 4 ([0, 0, 1, 1, 1, 4] : List Nat).length 4 =
        lowerBound [0, 0, 1, 1, 1, 4] 0
          ([0, 0, 1, 1, 1, 4] : List Nat).length 4 ∧
      upperBound [0, 0, 1, 1, 1, 4] 4 ([0, 0, 1, 1, 1, 4] : List Nat).length 4 =
        upperBound [0, 0, 1, 1, 1, 4] 0
          ([0, 0, 1, 1, 1, 4] : List Nat).length 4) :=
  no_position_below_value [0, 0, 1, 1, 1, 4] 4 (by decide)

/-- C3: for every valid sequence, target and row range, `Search(Lt)` and
`Search(Ge)` are contiguous ranges that are disjoint and together cover
the whole queried range; likewise `Search(Le)`/`Search(Gt)`.  Each of the
four results is a prefix or suffix of `[b, e)`, with the boundary
characterised by comparison with the target. -/
theorem search_partition_spec (values : List Nat) (t b e : Nat)
    (hv : ValidSetId values) (hbe : b ≤ e) (heN : e ≤ values.length) :
    ∃ m mU, b ≤ m ∧ m ≤ e ∧ b ≤ mU ∧ mU ≤ e ∧
      search values FilterOp.lt t b e = .range (RowRange.mk b m) ∧
      search values FilterOp.ge t b e = .range (RowRange.mk m e) ∧
      search values FilterOp.le t b e = .range (RowRange.mk b mU) ∧
      search values FilterOp.gt t b e = .range (RowRange.mk mU e) ∧
      (∀ i, ¬ ((RowRange.mk b m).holds i ∧ (RowRange.mk m e).holds i)) ∧
      (∀ i, (b ≤ i ∧ i < e) ↔
        ((RowRange.mk b m).holds i ∨ (RowRange.mk m e).holds i)) ∧
      (∀ i, b ≤ i → i < e →
        (((RowRange.mk b m).holds i ↔ values.getD i 0 < t) ∧
         ((RowRange.mk m e).holds i ↔ t ≤ values.getD i 0) ∧
         ((RowRange.mk b mU).holds i ↔ values.getD i 0 ≤ t) ∧
         ((RowRange.mk mU e).holds i ↔ t < values.getD i 0))) := by
  obtain ⟨hbd, hs⟩ := hv
  obtain ⟨hlb1, hlb2⟩ := lowerBound_bounds values b e t hbe heN
  obtain ⟨hub1, hub2⟩ := upperBound_bounds values b e t hbe heN
  refine ⟨lowerBound values b e t, upperBound values b e t,
    hlb1, hlb2, hub1, hub2, rfl, rfl, rfl, rfl, ?_, ?_, ?_⟩
  · intro i hcon
    simp only [RowRange.holds] at hcon
    omega
  · intro i
    simp only [RowRange.holds]
    omega
  · intro i hbi hie
    have hl := lowerBound_le_iff values b e t hs heN i hbi hie
    have hu := upperBound_le_iff values b e t hs heN i hbi hie
    have hlneg : i < lowerBound values b e t ↔ values.getD i 0 < t := by
      rw [← Nat.not_le, ← Nat.not_le]
      exact not_congr hl
    have huneg : i < upperBound values b e t ↔ values.getD i 0 ≤ t := by
      constructor
      · intro h
        by_contra hcon
        push_neg at hcon
        have := hu.mpr hcon
        omega
      · intro h
        by_contra hcon
        push_neg at hcon
        have := hu.mp hcon
        omega
    simp only [RowRange.holds]
    refine ⟨?_, ?_, ?_, ?_⟩
    · rw [and_iff_right hbi]
      exact hlneg
    · rw [and_iff_left hie]
      exact hl
    · rw [and_iff_right hbi]
      exact huneg
    · rw [and_iff_left hie]
      exact hu

/-- Closed instance of `search_partition_spec` at the sequence
`[0,0,1,1,1,4]`, target `1`, row range `[1, 5)`. -/
theorem search_partition_spec_witness :
    ∃ m mU, 1 ≤ m ∧ m ≤ 5 ∧ 1 ≤ mU ∧ mU ≤ 5 ∧
      search [0, 0, 1, 1, 1, 4] FilterOp.lt 1 1 5 =
        .range (RowRange.mk 1 m) ∧
      search [0, 0, 1, 1, 1, 4] FilterOp.ge 1 1 5 =
        .range (RowRange.mk m 5) ∧
      search [0, 0, 1, 1, 1, 4] FilterOp.le 1 1 5 =
        .range (RowRange.mk 1 mU) ∧
      search [0, 0, 1, 1, 1, 4] FilterOp.gt 1 1 5 =
        .range (RowRange.mk mU 5) ∧
      (∀ i, ¬ ((RowRange.mk 1 m).holds i ∧ (RowRange.mk m 5).holds i)) ∧
      (∀ i, (1 ≤ i ∧ i < 5) ↔
        ((RowRange.mk 1 m).holds i ∨ (RowRange.mk m 5).holds i)) ∧
      (∀ i, 1 ≤ i → i < 5 →
        (((RowRange.mk 1 m).holds i ↔
            ([0, 0, 1, 1, 1, 4] : List Nat).getD i 0 < 1) ∧
         ((RowRange.mk m 5).holds i ↔
            1 ≤ ([0, 0, 1, 1, 1, 4] : List Nat).getD i 0) ∧
         ((RowRange.mk 1 mU).holds i ↔
            ([0, 0, 1, 1, 1, 4] : List Nat).getD i 0 ≤ 1) ∧
         ((RowRange.mk mU 5).holds i ↔
            1 < ([0, 0, 1, 1, 1, 4] : List Nat).getD i 0))) :=
  search_partition_spec [0, 0, 1, 1, 1, 4] 1 1 5 (by decide) (by decide)
    (by decide)

/-- C7: for every valid sequence, target and row range, `Search` with
`Ne` returns an explicit position set (not a contiguous range) holding
exactly `{i ∈ [b, e) : value[i] ≠ t}`, the complement within `[b, e)` of
the `Eq` block. -/
theorem search_ne_spec (values : List Nat) (t b e : Nat)
    (hv : ValidSetId values) (hbe : b ≤ e) (heN : e ≤ values.length) :
    ∃ ps l u,
      search values FilterOp.ne t b e = .bitVector ps ∧
      search values FilterOp.eq t b e = .range (RowRange.mk l u) ∧
      (∀ i, i ∈ ps ↔ b ≤ i ∧ i < e ∧ values.getD i 0 ≠ t) ∧
      (∀ i, b ≤ i → i < e →
        (i ∈ ps ↔ ¬ (RowRange.mk l u).holds i)) := by
  obtain ⟨hbd, hs⟩ := hv
  have hmem : ∀ i, i ∈ (List.range' b (e - b)).filter
      (fun i => values.getD i 0 != t) ↔
      b ≤ i ∧ i < e ∧ values.getD i 0 ≠ t := by
    intro i
    rw [List.mem_filter, List.mem_range'_1, bne_iff_ne]
    omega
  refine ⟨_, lowerBound values b e t, upperBound values b e t,
    rfl, rfl, hmem, ?_⟩
  intro i hbi hie
  rw [hmem i]
  have hblock := eq_block_char values t b e i hs heN hbi hie
  simp only [RowRange.holds]
  constructor
  · rintro ⟨_, _, hne⟩ hcon
    exact hne (hblock.mp hcon)
  · intro hcon
    exact ⟨hbi, hie, fun heq => hcon (hblock.mpr heq)⟩

/-- Closed instance of `search_ne_spec` at the sequence `[0,0,1,1,1,4]`,
target `1`, full range `[0, 6)`. -/
theorem search_ne_spec_witness :
    ∃ ps l u,
      search [0, 0, 1, 1, 1, 4] FilterOp.ne 1 0 6 = .bitVector ps ∧
      search [0, 0, 1, 1, 1, 4] FilterOp.eq 1 0 6 =
        .range (RowRange.mk l u) ∧
      (∀ i, i ∈ ps ↔ 0 ≤ i ∧ i < 6 ∧
        ([0, 0, 1, 1, 1, 4] : List Nat).getD i 0 ≠ 1) ∧
      (∀ i, 0 ≤ i → i < 6 →
        (i ∈ ps ↔ ¬ (RowRange.mk l u).holds i)) :=
  search_ne_spec [0, 0, 1, 1, 1, 4] 1 0 6 (by decide) (by decide) (by decide)

/-- C8: for every value sequence, target and row range, `Search` with
`IsNull` returns an empty result (a range holding no position) and
`Search` with `IsNotNull` returns the full queried range `[b, e)`;
both are ordinary results, not errors. -/
theorem search_isNull_isNotNull (values : List Nat) (t b e : Nat) :
    search values .isNull t b e = .range ⟨b, b⟩ ∧
    (∀ i, ¬ (RowRange.mk b b).holds i) ∧
    search values .isNotNull t b e = .range ⟨b, e⟩ ∧
    (∀ i, (RowRange.mk b e).holds i ↔ b ≤ i ∧ i < e) := by
  refine ⟨rfl, ?_, rfl, fun i => Iff.rfl⟩
  intro i hi
  simp only [RowRange.holds] at hi
  omega

/-- C9: `SetIdStorage::size()` returns the length of the value vector
cast to `uint32_t`: the exact element count when it is below `2^32`, and
the true length reduced modulo `2^32` otherwise. -/
theorem size_spec (values : List Nat) :
    (values.length < 2 ^ 32 → size values = values.length) ∧
    size values = values.length % 2 ^ 32 := by
  exact ⟨fun h => Nat.mod_eq_of_lt h, rfl⟩

/-- Closed instance of `size_spec` at a concrete sequence. -/
theorem size_spec_witness :
    (([0, 0, 1, 1, 1, 4] : List Nat).length < 2 ^ 32 →
      size [0, 0, 1, 1, 1, 4] = ([0, 0, 1, 1, 1, 4] : List Nat).length) ∧
    size [0, 0, 1, 1, 1, 4] = ([0, 0, 1, 1, 1, 4] : List Nat).length % 2 ^ 32 :=
  size_spec [0, 0, 1, 1, 1, 4]

/-- The entries at two indices `k1 < k2` form a two-element sublist. -/
theorem getD_pair_sublist :
    ∀ (P : List Nat) (k1 k2 : Nat), k1 < k2 → k2 < P.length →
      List.Sublist [P.getD k1 0, P.getD k2 0] P := by
  intro P
  induction P with
  | nil =>
    intro k1 k2 _ h2
    simp at h2
  | cons a tl ih =>
    intro k1 k2 h12 h2
    match k1, k2 with
    | 0, m + 1 =>
      have hm : m < tl.length := by
        simp at h2
        omega
      have hmem : tl.getD m 0 ∈ tl := by
        rw [List.getD_eq_getElem _ _ hm]
        exact List.getElem_mem hm
      simpa using List.Sublist.cons₂ a (List.singleton_sublist.mpr hmem)
    | n + 1, m + 1 =>
      have hrec := ih n m (by omega) (by simp at h2; omega)
      simpa using List.Sublist.cons a hrec

/-- A two-element sublist occurs at two ordered indices. -/
theorem pair_sublist_getD :
    ∀ (L : List Nat) (a b : Nat), List.Sublist [a, b] L →
      ∃ j1 j2, j1 < j2 ∧ j2 < L.length ∧
        L.getD j1 0 = a ∧ L.getD j2 0 = b := by
  intro L
  induction L with
  | nil =>
    intro a b h
    exact absurd h (by simp)
  | cons c tl ih =>
    intro a b h
    cases h with
    | cons _ h1 =>
      obtain ⟨j1, j2, hj12, hlen, ha, hb⟩ := ih a b h1
      exact ⟨j1 + 1, j2 + 1, by omega, by simp; omega,
        by simpa using ha, by simpa using hb⟩
    | cons₂ _ h1 =>
      have hmem : b ∈ tl := List.singleton_sublist.mp h1
      obtain ⟨n, hn, hb⟩ := List.mem_iff_getElem.mp hmem
      refine ⟨0, n + 1, by omega, by simp; omega, by simp, ?_⟩
      rw [List.getD_cons_succ, List.getD_eq_getElem _ _ hn]
      exact hb

/-- C4: `StableSort` is stable: if `k1 < k2` and the values at
`positions[k1]` and `positions[k2]` are equal before sorting, then after
sorting the position originally at `k1` still precedes the position
originally at `k2`. -/
theorem stableSort_stable_spec (values P : List Nat) (k1 k2 : Nat)
    (h12 : k1 < k2) (h2 : k2 < P.length)
    (heq : values.getD (P.getD k1 0) 0 = values.getD (P.getD k2 0) 0) :
    ∃ j1 j2, j1 < j2 ∧ j2 < (stableSort values P).length ∧
      (stableSort values P).getD j1 0 = P.getD k1 0 ∧
      (stableSort values P).getD j2 0 = P.getD k2 0 := by
  have hsub : List.Sublist [P.getD k1 0, P.getD k2 0] P :=
    getD_pair_sublist P k1 k2 h12 h2
  have hpair : List.Pairwise
      (fun a b => (fun x y =>
        decide (values.getD x 0 ≤ values.getD y 0)) a b = true)
      [P.getD k1 0, P.getD k2 0] := by
    constructor
    · intro x hx
      rw [List.mem_singleton] at hx
      subst hx
      simp only [decide_eq_true_eq]
      exact le_of_eq heq
    · constructor
      · intro x hx
        simp at hx
      · exact List.Pairwise.nil
  have hsorted := @List.sublist_mergeSort Nat
    (fun x y => decide (values.getD x 0 ≤ values.getD y 0)) P
    (fun a b c hab hbc => by
      simp only [decide_eq_true_eq] at hab hbc ⊢
      omega)
    (fun a b => by
      simp only [Bool.or_eq_true, decide_eq_true_eq]
      exact Nat.le_total _ _)
    _ hpair hsub
  unfold stableSort
  exact pair_sublist_getD _ _ _ hsorted

/-- Closed instance of `stableSort_stable_spec` at the sequence
`[0,0,1,1,1,4]` and buffer `[4, 1, 3, 2]` (positions 3 and 2 both hold
value 1). -/
theorem stableSort_stable_spec_witness :
    ∃ j1 j2, j1 < j2 ∧
      j2 < (stableSort [0, 0, 1, 1, 1, 4] [4, 1, 3, 2]).length ∧
      (stableSort [0, 0, 1, 1, 1, 4] [4, 1, 3, 2]).getD j1 0 =
        ([4, 1, 3, 2] : List Nat).getD 0 0 ∧
      (stableSort [0, 0, 1, 1, 1, 4] [4, 1, 3, 2]).getD j2 0 =
        ([4, 1, 3, 2] : List Nat).getD 2 0 :=
  stableSort_stable_spec [0, 0, 1, 1, 1, 4] [4, 1, 3, 2] 0 2
    (by decide) (by decide) (by decide)

/-- C5: after `Sort`, the value at the positions is non-decreasing, the
multiset of positions in the buffer is preserved, and empty or singleton
buffers are left unchanged. -/
theorem sortRows_spec (values P : List Nat) :
    ((sortRows values P).map (fun r => values.getD r 0)).Pairwise (· ≤ ·) ∧
    (sortRows values P).Perm P ∧
    (P.length ≤ 1 → sortRows values P = P) := by
  refine ⟨?_, List.mergeSort_perm P _, ?_⟩
  · rw [List.pairwise_map]
    have hsorted := @List.sorted_mergeSort Nat
      (fun x y => decide (values.getD x 0 ≤ values.getD y 0))
      (fun a b c hab hbc => by
        simp only [decide_eq_true_eq] at hab hbc ⊢
        omega)
      (fun a b => by
        simp only [Bool.or_eq_true, decide_eq_true_eq]
        exact Nat.le_total _ _)
      P
    unfold sortRows
    exact List.Pairwise.imp (fun h => by simpa using h) hsorted
  · intro hlen
    cases P with
    | nil => simp [sortRows, List.mergeSort_nil]
    | cons a tl =>
      cases tl with
      | nil => simp [sortRows, List.mergeSort_singleton]
      | cons b tl2 => simp at hlen

/-- Closed instance of `sortRows_spec` at the sequence `[0,0,1,1,1,4]`
and buffer `[5, 3, 1]`. -/
theorem sortRows_spec_witness :
    ((sortRows [0, 0, 1, 1, 1, 4] [5, 3, 1]).map
      (fun r => ([0, 0, 1, 1, 1, 4] : List Nat).getD r 0)).Pairwise
        (· ≤ ·) ∧
    (sortRows [0, 0, 1, 1, 1, 4] [5, 3, 1]).Perm [5, 3, 1] ∧
    (([5, 3, 1] : List Nat).length ≤ 1 →
      sortRows [0, 0, 1, 1, 1, 4] [5, 3, 1] = [5, 3, 1]) :=
  sortRows_spec [0, 0, 1, 1, 1, 4] [5, 3, 1]

/-- C6: `IndexSearch` with `sorted = false` reports, as an explicit
position set, exactly the supplied positions whose value satisfies the
predicate, independently of the order of the supplied list. -/
theorem indexSearch_unsorted_spec (values : List Nat) (op : FilterOp)
    (t : Nat) (S SAlt : List Nat) (hperm : S.Perm SAlt) :
    ∃ ps psAlt,
      indexSearch values op t S false = .bitVector ps ∧
      indexSearch values op t SAlt false = .bitVector psAlt ∧
      ps.Perm psAlt ∧
      (∀ i, i ∈ ps ↔ i ∈ S ∧ opMatches op t (values.getD i 0) = true) := by
  refine ⟨_, _, rfl, rfl, hperm.filter _, fun i => List.mem_filter⟩

/-- Closed instance of `indexSearch_unsorted_spec` on the worked example
of the spec: sequence `[0,0,1,1,1,4]`, predicate `Eq 1`, index list
`[5,4,3,2,1,0]` against its reversal. -/
theorem indexSearch_unsorted_spec_witness :
    ∃ ps psAlt,
      indexSearch [0, 0, 1, 1, 1, 4] FilterOp.eq 1 [5, 4, 3, 2, 1, 0]
        false = .bitVector ps ∧
      indexSearch [0, 0, 1, 1, 1, 4] FilterOp.eq 1 [0, 1, 2, 3, 4, 5]
        false = .bitVector psAlt ∧
      ps.Perm psAlt ∧
      (∀ i, i ∈ ps ↔ i ∈ ([5, 4, 3, 2, 1, 0] : List Nat) ∧
        opMatches FilterOp.eq 1
          (([0, 0, 1, 1, 1, 4] : List Nat).getD i 0) = true) :=
  indexSearch_unsorted_spec [0, 0, 1, 1, 1, 4] FilterOp.eq 1
    [5, 4, 3, 2, 1, 0] [0, 1, 2, 3, 4, 5] (by decide)

end SetId

namespace ProcessStats

/-- C10: in the `ProcessStatsDataSource` constructor, a configured
`proc_stats_poll_ms` strictly between 0 and 100 is raised to exactly
100 ms; a configured value of 0 or of at least 100 is kept unchanged; and
whenever the effective poll period is non-zero the cache TTL in ticks is
`max(proc_stats_cache_ttl_ms / poll_period, 1)`. -/
theorem initPollState_spec (cfg : Config) :
    (0 < cfg.proc_stats_poll_ms → cfg.proc_stats_poll_ms < 100 →
      (initPollState cfg).pollPeriodMs = 100) ∧
    (cfg.proc_stats_poll_ms = 0 ∨ 100 ≤ cfg.proc_stats_poll_ms →
      (initPollState cfg).pollPeriodMs = cfg.proc_stats_poll_ms) ∧
    (0 < (initPollState cfg).pollPeriodMs →
      (initPollState cfg).cacheTtlTicks =
        some (max (cfg.proc_stats_cache_ttl_ms /
          (initPollState cfg).pollPeriodMs) 1)) := by
  unfold initPollState
  rcases cfg with ⟨p0, ttl⟩
  by_cases h0 : 0 < p0 <;> by_cases h1 : p0 < 100 <;>
    simp [h0, h1] <;> omega

/-- Closed instance of `initPollState_spec` at a concrete configuration
(`proc_stats_poll_ms = 50`, `proc_stats_cache_ttl_ms = 1000`). -/
theorem initPollState_spec_witness :
    (0 < (Config.mk 50 1000).proc_stats_poll_ms →
      (Config.mk 50 1000).proc_stats_poll_ms < 100 →
      (initPollState (Config.mk 50 1000)).pollPeriodMs = 100) ∧
    ((Config.mk 50 1000).proc_stats_poll_ms = 0 ∨
        100 ≤ (Config.mk 50 1000).proc_stats_poll_ms →
      (initPollState (Config.mk 50 1000)).pollPeriodMs =
        (Config.mk 50 1000).proc_stats_poll_ms) ∧
    (0 < (initPollState (Config.mk 50 1000)).pollPeriodMs →
      (initPollState (Config.mk 50 1000)).cacheTtlTicks =
        some (max ((Config.mk 50 1000).proc_stats_cache_ttl_ms /
          (initPollState (Config.mk 50 1000)).pollPeriodMs) 1)) :=
  initPollState_spec (Config.mk 50 1000)

end ProcessStats
